import Mathlib

/-!
Verification of the `ngx-deps-upgrade` cli-command-docs upgradelet
(`src/lib/aio/upgrade-cli-src.ts`) and its version-control adapter
(`src/lib/utils/git-repo.ts`).

Strings are modelled as lists of characters (`Str`); JavaScript's
`String.prototype.startsWith`, `trim`, `split` and template literals are
embedded as the corresponding list functions.  The GitHub client and the
shell are external collaborators; their responses are abstract inputs
(`World`, `GitRepoState.exec`).

Error semantics of shell commands: the upgradelet module executes
`sh.set('-e')`, i.e. it configures the shell wrapper to raise on a failing
command, and it selectively wraps exactly the calls it is willing to lose
(`commentOnSupercededPrs`, `localRepo.destroy`, credentials removal, error
reporting) in `ignoreError`.  A failing `git push` used for a remote-branch
deletion is not wrapped anywhere, so its error propagates and aborts the
run; the model reflects this with the `deleteFails` input aborting
`checkAndUpgrade`.
-/

/-- JavaScript strings, embedded as lists of characters. -/
abbrev Str := List Char

/-- Shorthand turning a Lean string literal into the embedded type. -/
def strL (s : String) : Str := s.toList

/-- `s.startsWith(p)` of JavaScript: `p` is a literal prefix of `s`. -/
def strStartsWith (s p : Str) : Bool := p.isPrefixOf s

/-- Whitespace characters relevant to `String.prototype.trim` for the
strings this program builds (commit messages and command lines). -/
def isJsWs (c : Char) : Bool := c == ' ' || c == '\n' || c == '\t' || c == '\r'

/-- `String.prototype.trim`: strip whitespace from both ends. -/
def trimStr (s : Str) : Str :=
  ((s.dropWhile isJsWs).reverse.dropWhile isJsWs).reverse

/-- The decimal digit character for `n < 10`. -/
def digitChar (n : Nat) : Char := Char.ofNat (48 + n)

/-- Fuelled decimal rendering of a natural number. -/
def natStrGo : Nat → Nat → Str
  | 0, _ => []
  | fuel + 1, n =>
    if n < 10 then [digitChar n]
    else natStrGo fuel (n / 10) ++ [digitChar (n % 10)]

/-- Rendering of a JavaScript number (a PR number) in a template literal. -/
def natStr (n : Nat) : Str := natStrGo (n + 1) n

/-- `Array.prototype.join(sep)`. -/
def joinSep (sep : Str) : List Str → Str
  | [] => []
  | [x] => x
  | x :: xs => x ++ sep ++ joinSep sep xs

/-- `String.prototype.split('\n')`, auxiliary (accumulator is reversed). -/
def splitNlGo : Str → Str → List Str
  | acc, [] => [acc.reverse]
  | acc, c :: rest =>
    if c == '\n' then acc.reverse :: splitNlGo [] rest
    else splitNlGo (c :: acc) rest

/-- `String.prototype.split('\n')`. -/
def splitNl (s : Str) : List Str := splitNlGo [] s

/-- `String.prototype.split(/\r?\n/)`, auxiliary: a carriage return kept at
the top of the reversed accumulator is consumed together with the newline. -/
def splitCrNlGo : Str → Str → List Str
  | acc, [] => [acc.reverse]
  | acc, c :: rest =>
    if c == '\n' then
      (match acc with
        | '\r' :: acc2 => acc2.reverse
        | _ => acc.reverse) :: splitCrNlGo [] rest
    else splitCrNlGo (c :: acc) rest

/-- `String.prototype.split(/\r?\n/)` as used by `GitRepo.commit`. -/
def splitCrNl (s : Str) : List Str := splitCrNlGo [] s

/-- Wrapping a commit-message line in double quotes: `` `"${m}"` ``. -/
def quoteStr (m : Str) : Str := '"' :: m ++ ['"']

namespace GitRepo

/-- `GitRepo.ORIGIN`. -/
def ORIGIN : Str := strL "origin"

/-- `GitRepo.UPSTREAM`. -/
def UPSTREAM : Str := strL "upstream"

/-- A value of the option bag `ICommnandOptions`: boolean flag, single
string value, or a list of string values (flag repeated per value). -/
inductive OptVal
  | bool (b : Bool)
  | str (s : Str)
  | strs (l : List Str)
deriving DecidableEq, Repr

/-- The option bag, in the key order of the JavaScript object literal. -/
abbrev CommandOptions := List (Str × OptVal)

/-- Rendering of one option: short flag for one-character keys, long flag
otherwise; `true` renders as the bare flag, strings as `flag value`, and a
list repeats the flag once per value. -/
def renderOpt (key : Str) (v : OptVal) : Str :=
  let name := if key.length == 1 then '-' :: key else '-' :: '-' :: key
  let values : List Str :=
    match v with
    | .bool _ => [[]]
    | .str s => [s]
    | .strs l => l
  joinSep [' '] (values.map (fun value => trimStr (name ++ ' ' :: value)))

/-- `GitRepo.withOptions`: append the rendered option bag (keys with value
`false` dropped) to the command when it is non-empty. -/
def withOptions (cmd : Str) (opts : Option CommandOptions) : Str :=
  match opts with
  | none => cmd
  | some o =>
    let optsStr :=
      joinSep [' ']
        ((o.filter (fun kv => kv.2 != OptVal.bool false)).map
          (fun kv => renderOpt kv.1 kv.2))
    if optsStr.isEmpty then cmd else cmd ++ ' ' :: optsStr

/-- The error raised when an operation is attempted on a destroyed working
copy (`'Repository already destroyed.'`). -/
inductive GitError
  | closedResource
deriving DecidableEq, Repr

/-- The state of one `GitRepo` instance: the abstract shell (mapping a full
command line to its stdout) and the `destroyed` flag. -/
structure GitRepoState where
  exec : Str → Str
  destroyed : Bool

/-- `GitRepo.execInRepo`: raises the closed-resource error once the working
copy has been destroyed, otherwise runs the trimmed command with its
rendered options and yields its stdout. -/
def execInRepo (s : GitRepoState) (partialCmd : Str) (opts : Option CommandOptions) :
    Except GitError Str :=
  if s.destroyed then .error .closedResource
  else .ok (s.exec (withOptions (trimStr partialCmd) opts))

/-- `GitRepo.currentBranch`: `git rev-parse --abbrev-ref HEAD`, trimmed. -/
def currentBranch (s : GitRepoState) : Except GitError Str :=
  (execInRepo s (strL "git rev-parse --abbrev-ref HEAD") none).map trimStr

/-- `GitRepo.addRemote`: remove any old remote of that name, then add it. -/
def addRemote (s : GitRepoState) (name url : Str) : Except GitError Unit := do
  _ ← execInRepo s (strL "git remote remove " ++ name ++ strL " || true") none
  _ ← execInRepo s (strL "git remote add " ++ name ++ ' ' :: url) none
  pure ()

/-- `GitRepo.checkout`. -/
def checkout (s : GitRepoState) (ref : Str) (opts : Option CommandOptions) :
    Except GitError Unit := do
  _ ← execInRepo s (strL "git checkout " ++ ref) opts
  pure ()

/-- `GitRepo.commit`: the message lines are passed as a repeated, quoted
`--message` option appended to the caller's option bag (no caller passes a
`message` key of its own). -/
def commit (s : GitRepoState) (msg : Str) (opts : Option CommandOptions) :
    Except GitError Unit := do
  _ ← execInRepo s (strL "git commit")
      (some ((opts.getD []) ++
        [(strL "message", OptVal.strs ((splitCrNl msg).map quoteStr))]))
  pure ()

/-- `GitRepo.config`. -/
def config (s : GitRepoState) (key value : Str) : Except GitError Unit := do
  _ ← execInRepo s (strL "git config " ++ key ++ ' ' :: value) none
  pure ()

/-- The collapsed overloads of `GitRepo.fetch`: with or without a branch. -/
inductive FetchArgs
  | noBranch
  | branch (b : Str)
deriving DecidableEq, Repr

/-- `GitRepo.fetch`: when no branch is given the branch argument collapses
to the empty string (the overload shifting of the source). -/
def fetch (s : GitRepoState) (remote : Str) (fa : FetchArgs)
    (opts : Option CommandOptions) : Except GitError Unit := do
  let b : Str := match fa with | .noBranch => [] | .branch b => b
  _ ← execInRepo s (strL "git fetch " ++ remote ++ ' ' :: b) opts
  pure ()

/-- The collapsed overloads of `GitRepo.push`: no branch (both default to
the current branch), only a remote branch (local defaults to the current
branch), or both. -/
inductive PushArgs
  | noBranch
  | remoteOnly (remoteBranch : Str)
  | both (localBranch remoteBranch : Str)
deriving DecidableEq, Repr

/-- `GitRepo.push`: resolve the overloads (reading `currentBranch` for the
defaults), then `git push remote local:remote`. -/
def push (s : GitRepoState) (remote : Str) (pa : PushArgs)
    (opts : Option CommandOptions) : Except GitError Unit := do
  let br : Str × Str ←
    match pa with
    | .noBranch => do
        let cb ← currentBranch s
        pure (cb, cb)
    | .remoteOnly rb => do
        let cb ← currentBranch s
        pure (cb, rb)
    | .both lb rb => pure (lb, rb)
  _ ← execInRepo s (strL "git push " ++ remote ++ ' ' :: br.1 ++ ':' :: br.2) opts
  pure ()

/-- `GitRepo.deleteRemoteBranch`: `push(remote, '', branch)`; the option
bag of its own signature is not forwarded by the source. -/
def deleteRemoteBranch (s : GitRepoState) (remote branch : Str)
    (_opts : Option CommandOptions) : Except GitError Unit :=
  push s remote (.both [] branch) none

/-- `GitRepo.getRemoteBranches`: shallow tag-less fetch, then list remote
branches and strip the `remote/` lead from the matching lines (the
source's `replace(^remote/, '')` on lines that passed the filter). -/
def getRemoteBranches (s : GitRepoState) (remote : Str) :
    Except GitError (List Str) := do
  _ ← fetch s remote .noBranch
      (some [(strL "depth", OptVal.str (strL "1")), (strL "no-tags", OptVal.bool true)])
  let branchesOutput ← execInRepo s (strL "git branch")
      (some [(strL "remote", OptVal.bool true)])
  pure ((((splitNl branchesOutput).map trimStr).filter
      (fun line => strStartsWith line (remote ++ ['/']))).map
      (fun line => line.drop (remote.length + 1)))

/-- `GitRepo.init`. -/
def init (s : GitRepoState) (opts : Option CommandOptions) : Except GitError Unit := do
  _ ← execInRepo s (strL "git init") opts
  pure ()

/-- `GitRepo.destroy`: removes the working directory only on the first
call and marks the instance destroyed; the boolean reports whether the
removal was performed.  It never consults `execInRepo` and so never raises
the closed-resource error. -/
def destroy (s : GitRepoState) : GitRepoState × Bool :=
  if s.destroyed then (s, false)
  else ({ s with destroyed := true }, true)

end GitRepo

namespace Upgradelet

/-- `Upgradelet.LOCAL_BRANCH_PREFIX`: the basename of the source file. -/
def localBranchLead : Str := strL "upgrade-cli-src"

/-- `Upgradelet.COMMIT_MESSAGE_PREFIX`. -/
def commitMessageLead : Str := strL "build(docs-infra): upgrade cli command docs sources to "

/-- The watched path lead `'help/'` of `checkNeedsUpgrade`. -/
def helpDirLead : Str := strL "help/"

/-- A pull-request record as reported by the hosting system. -/
structure PullRequest where
  number : Nat
  htmlUrl : Str
  title : Str
  state : Str
  headRef : Str
deriving DecidableEq, Repr

/-- One element of a `getAffectedFiles` response. -/
structure AffectedFile where
  filename : Str
deriving DecidableEq, Repr

/-- `IUpgradeCheckResults`. -/
structure UpgradeCheckResults where
  currentSha : Str
  latestSha : Str
  needsUpgrade : Bool
deriving DecidableEq, Repr

/-- The abstract remote state one `checkAndUpgrade` run observes: the
responses of the GitHub client and of the shell for the chosen branch.
`currentShaRaw` is the SHA extracted from the tracked `aio/package.json`
script (`none` when the file, script or pattern match is absent);
`latestShaRaw` is the raw `getLatestSha` answer; `prs` is the set of pull
requests of the upstream repository, each carrying its head `owner:branch`
reference; `deleteFails b` says whether the `git push` deleting remote
branch `b` fails; `commentFails n` whether commenting on PR `n` fails. -/
structure World where
  currentShaRaw : Option Str
  latestShaRaw : Str
  affectedFiles : Str → Str → List AffectedFile
  prs : List PullRequest
  originBranches : List Str
  originOwner : Str
  newPr : PullRequest
  deleteFails : Str → Bool
  commentFails : Nat → Bool
  labelFails : Bool

/-- The errors a run can end with. -/
inductive UpgError
  | aioShaMissing
  | cliBuildsShaEmpty
  | remoteOpFailed
deriving DecidableEq, Repr

/-- The externally visible operations a run performs, in order. -/
inductive Event
  | getAffectedFilesCall (currentSha latestSha : Str)
  | initRepo
  | listRemoteBranches (remote : Str)
  | deleteBranch (branch : Str) (ok : Bool)
  | dupCheck (branch : Str) (found : Bool)
  | fetchUpstream (branch : Str)
  | createBranch (branch : Str)
  | makeChanges (currentSha latestSha : Str)
  | commitEv (msg : Str)
  | fetchOrigin
  | pushEv (branch : Str)
  | createPrEv (head base title : Str)
  | addLabelsEv (prNumber : Nat) (ok : Bool)
  | commentEv (prNumber : Nat) (text : Str) (ok : Bool)
  | closePrEv (prNumber : Nat)
  | destroyRepo
deriving DecidableEq, Repr

/-- How a `checkAndUpgrade` run ends. -/
inductive Outcome
  | noUpgradeNeeded (shaMatched : Bool)
  | prExists (prs : List PullRequest)
  | upgraded (pr : PullRequest)
  | failed (e : UpgError)
deriving DecidableEq, Repr

/-- A run: its event trace and its outcome. -/
structure RunResult where
  trace : List Event
  outcome : Outcome
deriving DecidableEq, Repr

/-- `Upgradelet.shasMatch`: two SHAs are equivalent when either is a
string-prefix of the other. -/
def shasMatch (sha1 sha2 : Str) : Bool :=
  strStartsWith sha1 sha2 || strStartsWith sha2 sha1

/-- `retrieveShaFromAio`: the SHA extracted from the tracked file, or a
configuration error when absent. -/
def retrieveShaFromAio (w : World) : Except UpgError Str :=
  match w.currentShaRaw with
  | none => .error .aioShaMissing
  | some sha => .ok sha

/-- `retrieveShaFromCliBuilds`: the latest SHA of the builds repository,
rejected when empty, truncated to 9 characters (`slice(0, 9)`). -/
def retrieveShaFromCliBuilds (w : World) : Except UpgError Str :=
  if w.latestShaRaw.isEmpty then .error .cliBuildsShaEmpty
  else .ok (w.latestShaRaw.take 9)

/-- `Upgradelet.checkNeedsUpgrade`, together with the list of remote
queries it performs: the diff query `getAffectedFiles` runs only when the
SHAs do not match, and the result then needs an affected file under
`help/`. -/
def checkNeedsUpgrade (w : World) :
    Except UpgError (UpgradeCheckResults × List Event) := do
  let currentSha ← retrieveShaFromAio w
  let latestSha ← retrieveShaFromCliBuilds w
  if !shasMatch currentSha latestSha then
    let affectedFiles := w.affectedFiles currentSha latestSha
    let didHelpChange :=
      affectedFiles.any (fun file => strStartsWith file.filename helpDirLead)
    pure (⟨currentSha, latestSha, didHelpChange⟩,
      [Event.getAffectedFilesCall currentSha latestSha])
  else
    pure (⟨currentSha, latestSha, false⟩, [])

/-- The head reference `` `${originRepo.owner}:${branch}` `` used both for
the PR search and for `createPullRequest`. -/
def prHead (w : World) (branch : Str) : Str :=
  w.originOwner ++ ':' :: branch

/-- `GithubRepo.getPullRequests` with search head `head` and state `all`:
the pull requests whose head matches. -/
def getPullRequests (w : World) (head : Str) : List PullRequest :=
  w.prs.filter (fun pr => pr.headRef == head)

/-- `Upgradelet.getOpenPrsPerBranch`: per candidate branch the open pull
requests whose title starts with the commit-message lead; branches with no
such PR are dropped.  The JavaScript `Map` is an insertion-ordered
association list; the branch lists produced by `git branch` contain each
branch once, so no key collapsing occurs. -/
def getOpenPrsPerBranch (w : World) (branches : List Str) :
    List (Str × List PullRequest) :=
  let prsForBranches := branches.map (fun branch => getPullRequests w (prHead w branch))
  let relevantPrsForBranches := prsForBranches.map
    (fun prsForBranch => prsForBranch.filter
      (fun pr => strStartsWith pr.title commitMessageLead))
  let entries := (branches.zip relevantPrsForBranches).map
    (fun bp => (bp.1, bp.2.filter (fun pr => pr.state == strL "open")))
  entries.filter (fun e => !e.2.isEmpty)

/-- The origin branches carrying the automation lead (`relevantBranches`
of `checkAndUpgrade`). -/
def relevantBranches (w : World) : List Str :=
  w.originBranches.filter (fun branchName => strStartsWith branchName localBranchLead)

/-- `relevantBranchesWithOpenPrs`: the keys of the branch-to-open-PR map. -/
def branchesWithOpenPrs (w : World) : List Str :=
  (getOpenPrsPerBranch w (relevantBranches w)).map Prod.fst

/-- The branches `cleanupObsoleteBranches` deletes: candidates with no
open relevant PR. -/
def obsoleteBranchesOf (w : World) : List Str :=
  (relevantBranches w).filter (fun branch => !(branchesWithOpenPrs w).contains branch)

/-- The deletion loop of `cleanupObsoleteBranches`: branches are deleted
in order; a failing deletion raises (`sh.set('-e')`, no surrounding
`ignoreError`), so the loop stops there.  Returns the delete attempts and
whether the loop completed. -/
def cleanupGo (w : World) : List Str → List Event × Bool
  | [] => ([], true)
  | b :: rest =>
    if w.deleteFails b then ([Event.deleteBranch b false], false)
    else
      let r := cleanupGo w rest
      (Event.deleteBranch b true :: r.1, r.2)

/-- `` `${prefix}--${branch}--${latestSha}` ``: the automation branch for a
target branch and SHA. -/
def localBranchName (branch latestSha : Str) : Str :=
  localBranchLead ++ strL "--" ++ branch ++ strL "--" ++ latestSha

/-- `supercededPrs`: the union of the open relevant PRs of all candidate
branches, in map (= discovery) order. -/
def supercededPrsOf (w : World) : List PullRequest :=
  ((getOpenPrsPerBranch w (relevantBranches w)).map Prod.snd).foldl
    (fun aggr prs => aggr ++ prs) []

/-- The commit message: subject `prefix + latestSha`, blank line, one
`Closes #N` line per superseded PR, trimmed. -/
def commitMsgOf (w : World) (latestSha : Str) : Str :=
  trimStr ((commitMessageLead ++ latestSha) ++ strL "\n\n" ++
    joinSep (strL "\n")
      ((supercededPrsOf w).map (fun pr => strL "Closes #" ++ natStr pr.number)))

/-- The comment `` `Superceded by #${newPr.number}.` ``. -/
def supercededComment (newPr : PullRequest) : Str :=
  strL "Superceded by #" ++ natStr newPr.number ++ strL "."

/-- The events of the make-changes/submit/comment/clean-up tail of a run
that passed the duplicate check: shallow upstream fetch, new local branch,
content substitution, commit, unshallow origin fetch, force push, PR
creation, best-effort labelling, best-effort comments on all superseded
PRs (attempted for every PR whatever the individual results), best-effort
workspace destruction. -/
def upgradeTrace (w : World) (branch : Str) (res : UpgradeCheckResults) : List Event :=
  [Event.fetchUpstream branch,
   Event.createBranch (localBranchName branch res.latestSha),
   Event.makeChanges res.currentSha res.latestSha,
   Event.commitEv (commitMsgOf w res.latestSha),
   Event.fetchOrigin,
   Event.pushEv (localBranchName branch res.latestSha),
   Event.createPrEv (prHead w (localBranchName branch res.latestSha)) branch
     (commitMessageLead ++ res.latestSha),
   Event.addLabelsEv w.newPr.number (!w.labelFails)] ++
  (supercededPrsOf w).map (fun pr =>
    Event.commentEv pr.number (supercededComment w.newPr) (!w.commentFails pr.number)) ++
  [Event.destroyRepo]

/-- `Upgradelet.checkAndUpgrade` for one target branch: decide whether an
upgrade is needed; if so initialize the working copy, list the candidate
branches, delete the obsolete ones (aborting the run when a deletion
raises), short-circuit when an open PR for the target automation branch
already exists, and otherwise create, commit, push and submit the new
upgrade, commenting on the superseded PRs.  A propagated error ends the
run as `failed` (after the catch-block's best-effort credential cleanup
and error reporting, which touch no remote state modelled here). -/
def checkAndUpgrade (w : World) (branch : Str) : RunResult :=
  match checkNeedsUpgrade w with
  | .error e => ⟨[], .failed e⟩
  | .ok (res, ev0) =>
    if res.needsUpgrade then
      let localBranch := localBranchName branch res.latestSha
      let cleanup := cleanupGo w (obsoleteBranchesOf w)
      let preTrace := ev0 ++ Event.initRepo ::
        Event.listRemoteBranches GitRepo.ORIGIN :: cleanup.1
      if cleanup.2 = false then
        ⟨preTrace, .failed .remoteOpFailed⟩
      else if (branchesWithOpenPrs w).contains localBranch then
        ⟨preTrace ++ [Event.dupCheck localBranch true],
         .prExists (((getOpenPrsPerBranch w (relevantBranches w)).lookup
           localBranch).getD [])⟩
      else
        ⟨preTrace ++ Event.dupCheck localBranch false :: upgradeTrace w branch res,
         .upgraded w.newPr⟩
    else
      ⟨ev0, .noUpgradeNeeded (shasMatch res.currentSha res.latestSha)⟩

/-- Branch deletions among a trace's events, in order. -/
def deleteAttemptsOf (tr : List Event) : List Str :=
  tr.filterMap (fun e =>
    match e with
    | .deleteBranch b _ => some b
    | _ => none)

/-- Events that create the new upgrade work: local branch creation,
content change, commit, push of the new branch, PR creation.  (A remote
branch deletion is a distinct adapter operation and not among these.) -/
def isNewWorkEv : Event → Bool
  | .createBranch _ => true
  | .makeChanges _ _ => true
  | .commitEv _ => true
  | .pushEv _ => true
  | .createPrEv _ _ _ => true
  | _ => false

/-- Branch-deletion events. -/
def isDeleteEv : Event → Bool
  | .deleteBranch _ _ => true
  | _ => false

/-- Events that may only happen after the obsolete-branch deletions: the
duplicate check and everything creating the new work. -/
def isPostCleanupEv : Event → Bool
  | .dupCheck _ _ => true
  | .fetchUpstream _ => true
  | .createBranch _ => true
  | .makeChanges _ _ => true
  | .commitEv _ => true
  | .fetchOrigin => true
  | .pushEv _ => true
  | .createPrEv _ _ _ => true
  | _ => false

/-- PR-closing events (the engine has no code path emitting one). -/
def isCloseEv : Event → Bool
  | .closePrEv _ => true
  | _ => false

end Upgradelet

namespace Upgradelet

/-- The open relevant pull requests of one candidate branch: head matches
the branch, title starts with the commit-message lead, state is open (the
value `getOpenPrsPerBranch` associates with the branch). -/
def openRelevantPrsFor (w : World) (branch : Str) : List PullRequest :=
  ((getPullRequests w (prHead w branch)).filter
    (fun pr => strStartsWith pr.title commitMessageLead)).filter
    (fun pr => pr.state == strL "open")

/-- One `Closes #N` line of the commit-message body. -/
def closesLine (n : Nat) : Str := strL "Closes #" ++ natStr n

/-- The default target branch of the runs examined concretely below. -/
def bMain : Str := strL "main"

/-- A concrete pull request returned by `createPullRequest`. -/
def prNew : PullRequest :=
  ⟨42, strL "new-pr-url", commitMessageLead ++ strL "bbbbbbbbb", strL "open",
   strL "fork:upgrade-cli-src--main--bbbbbbbbb"⟩

/-- A concrete open relevant pull request of an existing automation
branch for the latest SHA `bbbbbbbbb`. -/
def prDup : PullRequest :=
  ⟨10, strL "dup-pr-url", commitMessageLead ++ strL "bbbbbbbbb", strL "open",
   strL "fork:upgrade-cli-src--main--bbbbbbbbb"⟩

/-- A concrete open relevant pull request of a stale automation branch
(for the older SHA `ccccccccc`). -/
def prOld : PullRequest :=
  ⟨10, strL "old-pr-url", commitMessageLead ++ strL "ccccccccc", strL "open",
   strL "fork:upgrade-cli-src--main--ccccccccc"⟩

/-- A world in which an upgrade is needed and no automation branch exists
yet. -/
def wBase : World :=
  { currentShaRaw := some (strL "aaa")
    latestShaRaw := strL "bbbbbbbbb"
    affectedFiles := fun _ _ => [⟨strL "help/cli.md"⟩]
    prs := []
    originBranches := []
    originOwner := strL "fork"
    newPr := prNew
    deleteFails := fun _ => false
    commentFails := fun _ => false
    labelFails := false }

/-- A world in which the automation branch for the latest SHA already has
an open relevant PR. -/
def wDup : World :=
  { wBase with
    originBranches := [strL "upgrade-cli-src--main--bbbbbbbbb"]
    prs := [prDup] }

/-- Like `wDup`, with an additional obsolete automation branch whose
remote deletion fails. -/
def wDupFail : World :=
  { wBase with
    originBranches := [strL "upgrade-cli-src--main--ccccccccc",
                       strL "upgrade-cli-src--main--bbbbbbbbb"]
    prs := [prDup]
    deleteFails := fun b => b == strL "upgrade-cli-src--main--ccccccccc" }

/-- A world with two obsolete automation branches in which deleting the
first one fails. -/
def wTwoObsolete : World :=
  { wBase with
    originBranches := [strL "upgrade-cli-src--main--ddddddddd",
                       strL "upgrade-cli-src--main--eeeeeeeee"]
    deleteFails := fun b => b == strL "upgrade-cli-src--main--ddddddddd" }

/-- A world with one obsolete automation branch (no open PR) whose
deletion succeeds. -/
def wOneObsolete : World :=
  { wBase with
    originBranches := [strL "upgrade-cli-src--main--ccccccccc"] }

/-- A world with one stale automation branch that still has an open
relevant PR (`prOld`), superseded by the new upgrade. -/
def wSuperceded : World :=
  { wBase with
    originBranches := [strL "upgrade-cli-src--main--ccccccccc"]
    prs := [prOld] }

/-- A world whose tracked file yields an empty current SHA. -/
def wEmptyCurrent : World :=
  { wBase with currentShaRaw := some [] }

end Upgradelet

/-- A destroyed working copy. -/
def gitRepoDead : GitRepo.GitRepoState := ⟨fun _ => [], true⟩

/-! ### General helper lemmas -/

theorem foldl_append_eq_flatten {α : Type} (L : List (List α)) (acc : List α) :
    L.foldl (fun a b => a ++ b) acc = acc ++ L.flatten := by
  induction L generalizing acc with
  | nil => simp
  | cons x xs ih => simp [List.foldl_cons, ih, List.append_assoc]

theorem dropWhile_eq_self_of_head? (p : Char → Bool) (s : Str)
    (h : ∀ c, s.head? = some c → p c = false) : s.dropWhile p = s := by
  cases s with
  | nil => rfl
  | cons a l => simp [List.dropWhile_cons, h a rfl]

theorem trimStr_eq_self (s : Str) (h1 : ∀ c, s.head? = some c → isJsWs c = false)
    (h2 : ∀ c, s.getLast? = some c → isJsWs c = false) : trimStr s = s := by
  unfold trimStr
  rw [dropWhile_eq_self_of_head? _ _ h1]
  rw [dropWhile_eq_self_of_head? _ _
    (fun c hc => h2 c (by rwa [List.head?_reverse] at hc))]
  exact List.reverse_reverse s

theorem trimStr_append_two_nl (s : Str) (hne : s ≠ [])
    (h1 : ∀ c, s.head? = some c → isJsWs c = false)
    (h2 : ∀ c, s.getLast? = some c → isJsWs c = false) :
    trimStr (s ++ strL "\n\n") = s := by
  have hnl : strL "\n\n" = ['\n', '\n'] := rfl
  unfold trimStr
  have hdrop : (s ++ strL "\n\n").dropWhile isJsWs = s ++ strL "\n\n" := by
    apply dropWhile_eq_self_of_head?
    intro c hc
    cases s with
    | nil => exact absurd rfl hne
    | cons a l =>
      simp only [List.cons_append, List.head?_cons, Option.some.injEq] at hc
      exact hc ▸ h1 a rfl
  rw [hdrop, List.reverse_append, hnl]
  have hrev : (['\n', '\n'] : Str).reverse = ['\n', '\n'] := rfl
  rw [hrev]
  have hws : isJsWs '\n' = true := rfl
  simp only [List.cons_append, List.nil_append, List.dropWhile_cons, hws, if_true]
  rw [dropWhile_eq_self_of_head? isJsWs s.reverse
    (fun c hc => h2 c (by rwa [List.head?_reverse] at hc))]
  exact List.reverse_reverse s

theorem mem_of_getLast?_eq_some {α : Type} {l : List α} {a : α}
    (h : l.getLast? = some a) : a ∈ l := by
  have hx : a ∈ l.getLast? := by simp [Option.mem_def, h]
  obtain ⟨hne2, heq⟩ := List.mem_getLast?_eq_getLast hx
  rw [heq]
  exact List.getLast_mem hne2

theorem mem_natStrGo_digit :
    ∀ fuel n c, c ∈ natStrGo fuel n → ∃ d, d < 10 ∧ c = digitChar d := by
  intro fuel
  induction fuel with
  | zero => intro n c hc; simp [natStrGo] at hc
  | succ fuel ih =>
    intro n c hc
    by_cases hn : n < 10
    · simp [natStrGo, hn] at hc
      exact ⟨n, hn, hc⟩
    · simp [natStrGo, hn] at hc
      rcases hc with hc | hc
      · exact ih _ _ hc
      · exact ⟨n % 10, Nat.mod_lt _ (by omega), hc⟩

theorem natStrGo_ne_nil (fuel n : Nat) : natStrGo (fuel + 1) n ≠ [] := by
  by_cases hn : n < 10
  · simp [natStrGo, hn]
  · simp [natStrGo, hn]

theorem natStr_ne_nil (n : Nat) : natStr n ≠ [] := natStrGo_ne_nil n n

theorem digit_not_ws : ∀ d, d < 10 → isJsWs (digitChar d) = false := by decide

theorem natStr_getLast_not_ws (n : Nat) :
    ∀ c, (natStr n).getLast? = some c → isJsWs c = false := by
  intro c hc
  obtain ⟨d, hd, rfl⟩ := mem_natStrGo_digit _ _ _ (mem_of_getLast?_eq_some hc)
  exact digit_not_ws d hd

theorem joinSep_cons_cons (sep x y : Str) (rest : List Str) :
    joinSep sep (x :: y :: rest) = x ++ sep ++ joinSep sep (y :: rest) := rfl

theorem joinSep_ne_nil (sep : Str) :
    ∀ lines, (∀ l ∈ lines, l ≠ []) → lines ≠ [] → joinSep sep lines ≠ [] := by
  intro lines hl hne
  match lines with
  | [] => exact absurd rfl hne
  | [x] =>
    simpa [joinSep] using hl x (by simp)
  | x :: y :: rest =>
    rw [joinSep_cons_cons]
    have : x ≠ [] := hl x (by simp)
    simp [List.append_assoc]
    intro hx
    exact absurd hx this

theorem joinSep_nl_getLast_not_ws :
    ∀ lines, (∀ l ∈ lines, l ≠ []) →
      (∀ l ∈ lines, ∀ c, l.getLast? = some c → isJsWs c = false) →
      ∀ c, (joinSep (strL "\n") lines).getLast? = some c → isJsWs c = false := by
  intro lines
  induction lines with
  | nil => intro _ _ c hc; simp [joinSep] at hc
  | cons x rest ih =>
    intro hne hws c hc
    match rest with
    | [] =>
      exact hws x (by simp) c (by simpa [joinSep] using hc)
    | y :: rest2 =>
      rw [joinSep_cons_cons] at hc
      have hj : joinSep (strL "\n") (y :: rest2) ≠ [] :=
        joinSep_ne_nil _ _ (fun l hl => hne l (by simp [hl])) (by simp)
      rw [List.append_assoc, List.getLast?_append_of_ne_nil _ (by simp [hj]),
        List.getLast?_append_of_ne_nil _ hj] at hc
      exact ih (fun l hl => hne l (by simp [hl]))
        (fun l hl => hws l (by simp [hl])) c hc

namespace Upgradelet

/-! ### Characterization of the model's components -/

theorem checkNeedsUpgrade_ok {w : World} {res : UpgradeCheckResults} {ev0 : List Event}
    (h : checkNeedsUpgrade w = .ok (res, ev0)) :
    w.currentShaRaw = some res.currentSha ∧
    res.latestSha = w.latestShaRaw.take 9 ∧
    w.latestShaRaw ≠ [] ∧
    res.needsUpgrade = (!shasMatch res.currentSha res.latestSha &&
      (w.affectedFiles res.currentSha res.latestSha).any
        (fun file => strStartsWith file.filename helpDirLead)) ∧
    ev0 = (if shasMatch res.currentSha res.latestSha then []
           else [Event.getAffectedFilesCall res.currentSha res.latestSha]) := by
  unfold checkNeedsUpgrade retrieveShaFromAio retrieveShaFromCliBuilds at h
  cases hc : w.currentShaRaw with
  | none =>
    rw [hc] at h
    simp [Bind.bind, Except.bind] at h
  | some sha =>
    rw [hc] at h
    by_cases hl : w.latestShaRaw.isEmpty
    · simp [Bind.bind, Except.bind, hl] at h
    · simp only [Bind.bind, Except.bind, hl, Bool.false_eq_true, if_false] at h
      by_cases hm : shasMatch sha (w.latestShaRaw.take 9)
      · simp only [hm, Bool.not_true, Bool.false_eq_true, if_false, pure, Except.pure,
          Except.ok.injEq, Prod.mk.injEq] at h
        obtain ⟨hres, hev⟩ := h
        subst hres
        subst hev
        exact ⟨by simp [hc], rfl, by simpa [List.isEmpty_iff] using hl,
          by simp [hm], by simp [hm]⟩
      · simp only [hm, Bool.not_false, if_true, pure, Except.pure,
          Except.ok.injEq, Prod.mk.injEq] at h
        obtain ⟨hres, hev⟩ := h
        subst hres
        subst hev
        exact ⟨by simp [hc], rfl, by simpa [List.isEmpty_iff] using hl,
          by simp [hm], by simp [hm]⟩

end Upgradelet

namespace Upgradelet

theorem ev0_shape {w : World} {res : UpgradeCheckResults} {ev0 : List Event}
    (h : checkNeedsUpgrade w = .ok (res, ev0)) :
    ev0 = [] ∨ ev0 = [Event.getAffectedFilesCall res.currentSha res.latestSha] := by
  obtain ⟨-, -, -, -, hev⟩ := checkNeedsUpgrade_ok h
  by_cases hm : shasMatch res.currentSha res.latestSha
  · left; simp [hev, hm]
  · right; simp [hev, hm]

theorem cleanupGo_attempts (w : World) (bs : List Str) :
    deleteAttemptsOf (cleanupGo w bs).1 =
      bs.takeWhile (fun b => !w.deleteFails b) ++
      (bs.dropWhile (fun b => !w.deleteFails b)).take 1 := by
  induction bs with
  | nil => rfl
  | cons b rest ih =>
    by_cases hb : w.deleteFails b
    · simp [cleanupGo, hb, deleteAttemptsOf, List.takeWhile_cons, List.dropWhile_cons]
    · simp only [cleanupGo, hb, Bool.false_eq_true, if_false]
      simp only [deleteAttemptsOf, List.filterMap_cons] at ih ⊢
      simp [ih, List.takeWhile_cons, List.dropWhile_cons, hb]

theorem cleanupGo_ok (w : World) (bs : List Str) :
    (cleanupGo w bs).2 = !bs.any w.deleteFails := by
  induction bs with
  | nil => rfl
  | cons b rest ih =>
    by_cases hb : w.deleteFails b
    · simp [cleanupGo, hb]
    · simp [cleanupGo, hb, ih]

theorem cleanupGo_events (w : World) (bs : List Str) :
    ∀ e ∈ (cleanupGo w bs).1, ∃ b ok, e = Event.deleteBranch b ok := by
  induction bs with
  | nil => intro e he; simp [cleanupGo] at he
  | cons b rest ih =>
    intro e he
    by_cases hb : w.deleteFails b
    · simp [cleanupGo, hb] at he
      exact ⟨b, false, he⟩
    · simp only [cleanupGo, hb, Bool.false_eq_true, if_false, List.mem_cons] at he
      rcases he with he | he
      · exact ⟨b, true, he⟩
      · exact ih e he

theorem zip_map_map {α β γ δ : Type} (f : α → β) (g : β → γ) (e : γ → δ) :
    ∀ l : List α, (l.zip ((l.map f).map g)).map (fun bp => (bp.1, e bp.2)) =
      l.map (fun b => (b, e (g (f b))))
  | [] => rfl
  | x :: xs => by
    simp only [List.map_cons, List.zip_cons_cons]
    rw [zip_map_map f g e xs]

theorem getOpenPrsPerBranch_eq (w : World) (branches : List Str) :
    getOpenPrsPerBranch w branches =
      (branches.map (fun b => (b, openRelevantPrsFor w b))).filter
        (fun e => !e.2.isEmpty) := by
  unfold getOpenPrsPerBranch
  dsimp only
  rw [zip_map_map (fun branch => getPullRequests w (prHead w branch))
    (fun prsForBranch => prsForBranch.filter
      (fun pr => strStartsWith pr.title commitMessageLead))
    (fun prs => prs.filter (fun pr => pr.state == strL "open")) branches]
  rfl

end Upgradelet

namespace Upgradelet

/-! ### Claim theorems -/

/-- C7: Sha equivalence (`shasMatch`) is reflexive and symmetric: for every
string `a`, `shasMatch a a = true`, and for all strings `a b`,
`shasMatch a b = shasMatch b a` (in particular for pairs of unequal length
where one is a prefix of the other). -/
theorem c7_shasMatch_refl_symm :
    (∀ a : Str, shasMatch a a = true) ∧
    (∀ a b : Str, shasMatch a b = shasMatch b a) := by
  constructor
  · intro a
    simp [shasMatch, strStartsWith, List.isPrefixOf_iff_prefix]
  · intro a b
    simp [shasMatch, strStartsWith, Bool.or_comm]

/-- C9: the empty string is `shasMatch`-equivalent to every Sha on either
side, and consequently a run of the upgrade-need detector whose current or
latest Sha is empty reports `needsUpgrade = false`. -/
theorem c9_shasMatch_empty :
    (∀ a : Str, shasMatch a [] = true ∧ shasMatch [] a = true) ∧
    (∀ (w : World) (res : UpgradeCheckResults) (ev0 : List Event),
      checkNeedsUpgrade w = .ok (res, ev0) →
      res.currentSha = [] ∨ res.latestSha = [] → res.needsUpgrade = false) := by
  constructor
  · intro a
    constructor
    · simp [shasMatch, strStartsWith, List.isPrefixOf_iff_prefix]
    · simp [shasMatch, strStartsWith, List.isPrefixOf_iff_prefix]
  · intro w res ev0 hres hemp
    obtain ⟨-, -, -, hneed, -⟩ := checkNeedsUpgrade_ok hres
    have hm : shasMatch res.currentSha res.latestSha = true := by
      rcases hemp with he | he <;>
        simp [he, shasMatch, strStartsWith, List.isPrefixOf_iff_prefix]
    simp [hneed, hm]

/-- C9 witness: a concrete world whose tracked file yields the empty
current Sha is reported as not needing an upgrade. -/
theorem c9_witness :
    (⟨[], strL "bbbbbbbbb", false⟩ : UpgradeCheckResults).needsUpgrade = false :=
  c9_shasMatch_empty.2 wEmptyCurrent ⟨[], strL "bbbbbbbbb", false⟩ [] rfl (Or.inl rfl)

/-- C2: `checkNeedsUpgrade` reports `needsUpgrade = true` exactly when the
current and latest Shas are not equivalent and some affected filename
starts with `help/`; when the Shas are equivalent no `getAffectedFiles`
query is performed. -/
theorem c2_checkNeedsUpgrade_correct (w : World) (res : UpgradeCheckResults)
    (ev0 : List Event) (hres : checkNeedsUpgrade w = .ok (res, ev0)) :
    (res.needsUpgrade = true ↔
      shasMatch res.currentSha res.latestSha = false ∧
      (w.affectedFiles res.currentSha res.latestSha).any
        (fun file => strStartsWith file.filename helpDirLead) = true) ∧
    (shasMatch res.currentSha res.latestSha = true →
      ∀ a b, Event.getAffectedFilesCall a b ∉ ev0) := by
  obtain ⟨-, -, -, hneed, hev⟩ := checkNeedsUpgrade_ok hres
  constructor
  · rw [hneed]
    simp [Bool.and_eq_true, Bool.not_eq_true']
  · intro hm a b
    rw [hev]
    simp [hm]

/-- C2 witness: in `wBase` the Shas differ, a `help/` file changed, and the
detector reports an upgrade as needed. -/
theorem c2_witness :
    (⟨strL "aaa", strL "bbbbbbbbb", true⟩ : UpgradeCheckResults).needsUpgrade = true ↔
      shasMatch (strL "aaa") (strL "bbbbbbbbb") = false ∧
      (wBase.affectedFiles (strL "aaa") (strL "bbbbbbbbb")).any
        (fun file => strStartsWith file.filename helpDirLead) = true :=
  (c2_checkNeedsUpgrade_correct wBase ⟨strL "aaa", strL "bbbbbbbbb", true⟩
    [Event.getAffectedFilesCall (strL "aaa") (strL "bbbbbbbbb")] rfl).1

end Upgradelet

/-- C10: `destroy` is idempotent: it always leaves the instance destroyed,
and calling it again on the destroyed instance is a total no-op (same
state, no directory removal) that raises no closed-resource error. -/
theorem c10_destroy_idempotent :
    ∀ s : GitRepo.GitRepoState,
      (GitRepo.destroy s).1.destroyed = true ∧
      GitRepo.destroy (GitRepo.destroy s).1 = ((GitRepo.destroy s).1, false) := by
  intro s
  by_cases hd : s.destroyed
  · simp [GitRepo.destroy, hd]
  · simp [GitRepo.destroy, hd]

/-- C8: every adapter operation other than `destroy` (including the
`currentBranch` accessor) raises the closed-resource error when invoked on
a destroyed instance. -/
theorem c8_ops_after_destroy (s : GitRepo.GitRepoState) (hd : s.destroyed = true) :
    (∀ name url, GitRepo.addRemote s name url = .error .closedResource) ∧
    (∀ remote fa opts, GitRepo.fetch s remote fa opts = .error .closedResource) ∧
    (∀ ref opts, GitRepo.checkout s ref opts = .error .closedResource) ∧
    (∀ msg opts, GitRepo.commit s msg opts = .error .closedResource) ∧
    (∀ remote pa opts, GitRepo.push s remote pa opts = .error .closedResource) ∧
    (∀ remote, GitRepo.getRemoteBranches s remote = .error .closedResource) ∧
    (∀ key value, GitRepo.config s key value = .error .closedResource) ∧
    (∀ opts, GitRepo.init s opts = .error .closedResource) ∧
    (∀ remote branch opts,
      GitRepo.deleteRemoteBranch s remote branch opts = .error .closedResource) ∧
    GitRepo.currentBranch s = .error .closedResource := by
  have hexec : ∀ cmd opts, GitRepo.execInRepo s cmd opts = .error .closedResource := by
    intro cmd opts
    simp [GitRepo.execInRepo, hd]
  have hcur : GitRepo.currentBranch s = .error .closedResource := by
    simp [GitRepo.currentBranch, hexec, Except.map]
  have hpush : ∀ remote pa opts, GitRepo.push s remote pa opts = .error .closedResource := by
    intro remote pa opts
    cases pa <;> simp [GitRepo.push, hcur, hexec, Bind.bind, Except.bind, pure, Except.pure]
  refine ⟨?_, ?_, ?_, ?_, hpush, ?_, ?_, ?_, ?_, hcur⟩
  · intro name url
    simp [GitRepo.addRemote, hexec, Bind.bind, Except.bind]
  · intro remote fa opts
    simp [GitRepo.fetch, hexec, Bind.bind, Except.bind]
  · intro ref opts
    simp [GitRepo.checkout, hexec, Bind.bind, Except.bind]
  · intro msg opts
    simp [GitRepo.commit, hexec, Bind.bind, Except.bind]
  · intro remote
    simp [GitRepo.getRemoteBranches, GitRepo.fetch, hexec, Bind.bind, Except.bind]
  · intro key value
    simp [GitRepo.config, hexec, Bind.bind, Except.bind]
  · intro opts
    simp [GitRepo.init, hexec, Bind.bind, Except.bind]
  · intro remote branch opts
    simp [GitRepo.deleteRemoteBranch, hpush]

/-- C8 witness: on a concrete destroyed instance, `currentBranch` and
`init` raise the closed-resource error. -/
theorem c8_witness :
    gitRepoDead.destroyed = true ∧
    GitRepo.currentBranch gitRepoDead = .error .closedResource ∧
    GitRepo.init gitRepoDead none = .error .closedResource := by
  have h := c8_ops_after_destroy gitRepoDead rfl
  exact ⟨rfl, h.2.2.2.2.2.2.2.2.2, h.2.2.2.2.2.2.2.1 none⟩

namespace Upgradelet

theorem upgradeTrace_not_delete (w : World) (branch : Str) (res : UpgradeCheckResults) :
    ∀ e ∈ upgradeTrace w branch res, isDeleteEv e = false := by
  intro e he
  unfold upgradeTrace at he
  simp only [List.cons_append, List.nil_append, List.mem_cons, List.mem_append,
    List.mem_map, List.mem_singleton, List.mem_nil_iff, or_false] at he
  rcases he with h | h | h | h | h | h | h | h | ⟨pr, -, h⟩ | h <;> subst h <;> rfl

theorem ev0_not_post {w : World} {res : UpgradeCheckResults} {ev0 : List Event}
    (hres : checkNeedsUpgrade w = .ok (res, ev0)) :
    ∀ e ∈ ev0, isPostCleanupEv e = false ∧ isDeleteEv e = false ∧
      isNewWorkEv e = false ∧ isCloseEv e = false := by
  intro e he
  rcases ev0_shape hres with h0 | h0 <;> subst h0
  · simp at he
  · simp at he
    subst he
    exact ⟨rfl, rfl, rfl, rfl⟩

theorem before_of_split (tr a b : List Event) (hsplit : tr = a ++ b)
    (ha : ∀ e ∈ a, isPostCleanupEv e = false)
    (hb : ∀ e ∈ b, isDeleteEv e = false) :
    ∀ i j (hi : i < tr.length) (hj : j < tr.length),
      isDeleteEv (tr.get ⟨i, hi⟩) = true →
      isPostCleanupEv (tr.get ⟨j, hj⟩) = true → i < j := by
  subst hsplit
  intro i j hi hj hdel hpost
  rw [List.get_eq_getElem] at hdel hpost
  have hia : i < a.length := by
    by_contra hge
    push_neg at hge
    rw [List.getElem_append i hi] at hdel
    rw [dif_neg (by omega)] at hdel
    have hib : i - a.length < b.length := by
      simp only [List.length_append] at hi
      omega
    have hmem := List.getElem_mem hib
    rw [hb _ hmem] at hdel
    exact Bool.false_ne_true hdel
  have hja : a.length ≤ j := by
    by_contra hlt
    push_neg at hlt
    rw [List.getElem_append j hj, dif_pos hlt] at hpost
    have hmem := List.getElem_mem hlt
    rw [ha _ hmem] at hpost
    exact Bool.false_ne_true hpost
  omega

theorem checkAndUpgrade_split (w : World) (branch : Str) :
    ∃ a b, (checkAndUpgrade w branch).trace = a ++ b ∧
      (∀ e ∈ a, isPostCleanupEv e = false) ∧
      (∀ e ∈ b, isDeleteEv e = false) := by
  unfold checkAndUpgrade
  cases hres : checkNeedsUpgrade w with
  | error e => exact ⟨[], [], by simp, by simp, by simp⟩
  | ok p =>
    obtain ⟨res, ev0⟩ := p
    have hev0 : ∀ e ∈ ev0, isPostCleanupEv e = false :=
      fun e he => (ev0_not_post hres e he).1
    have hclean : ∀ e ∈ (cleanupGo w (obsoleteBranchesOf w)).1,
        isPostCleanupEv e = false := by
      intro e he
      obtain ⟨b2, ok, rfl⟩ := cleanupGo_events w _ e he
      rfl
    have hpre : ∀ e ∈ ev0 ++ Event.initRepo ::
        Event.listRemoteBranches GitRepo.ORIGIN :: (cleanupGo w (obsoleteBranchesOf w)).1,
        isPostCleanupEv e = false := by
      intro e he
      simp only [List.mem_append, List.mem_cons] at he
      rcases he with he | he | he | he
      · exact hev0 e he
      · subst he; rfl
      · subst he; rfl
      · exact hclean e he
    by_cases hn : res.needsUpgrade
    · by_cases hcl : (cleanupGo w (obsoleteBranchesOf w)).2 = false
      · refine ⟨ev0 ++ Event.initRepo :: Event.listRemoteBranches GitRepo.ORIGIN ::
          (cleanupGo w (obsoleteBranchesOf w)).1, [], ?_, hpre, by simp⟩
        simp [hn, hcl]
      · by_cases hdup : localBranchName branch res.latestSha ∈ branchesWithOpenPrs w
        · refine ⟨ev0 ++ Event.initRepo :: Event.listRemoteBranches GitRepo.ORIGIN ::
            (cleanupGo w (obsoleteBranchesOf w)).1,
            [Event.dupCheck (localBranchName branch res.latestSha) true], ?_, hpre, ?_⟩
          · simp [hn, hcl, hdup]
          · intro e he
            simp at he
            subst he
            rfl
        · refine ⟨ev0 ++ Event.initRepo :: Event.listRemoteBranches GitRepo.ORIGIN ::
            (cleanupGo w (obsoleteBranchesOf w)).1,
            Event.dupCheck (localBranchName branch res.latestSha) false ::
              upgradeTrace w branch res, ?_, hpre, ?_⟩
          · simp [hn, hcl, hdup]
          · intro e he
            simp only [List.mem_cons] at he
            rcases he with he | he
            · subst he; rfl
            · exact upgradeTrace_not_delete w branch res e he
    · refine ⟨ev0, [], ?_, hev0, by simp⟩
      simp [hn]

/-- C5: in every run, each obsolete-branch deletion happens strictly
before the duplicate-PR check and before any event creating new work (new
local branch, content change, commit, push, PR creation). -/
theorem c5_deletions_first (w : World) (branch : Str) :
    ∀ i j (hi : i < (checkAndUpgrade w branch).trace.length)
      (hj : j < (checkAndUpgrade w branch).trace.length),
      isDeleteEv ((checkAndUpgrade w branch).trace.get ⟨i, hi⟩) = true →
      isPostCleanupEv ((checkAndUpgrade w branch).trace.get ⟨j, hj⟩) = true →
      i < j := by
  obtain ⟨a, b, hsplit, ha, hb⟩ := checkAndUpgrade_split w branch
  exact before_of_split _ a b hsplit ha hb

/-- C5 witness: in `wOneObsolete` the trace has its single deletion at
index 3 and the duplicate check at index 4. -/
theorem c5_witness :
    isDeleteEv ((checkAndUpgrade wOneObsolete bMain).trace.get ⟨3, by decide⟩) = true ∧
    isPostCleanupEv ((checkAndUpgrade wOneObsolete bMain).trace.get ⟨4, by decide⟩) = true ∧
    3 < 4 := by
  refine ⟨by decide, by decide, ?_⟩
  exact c5_deletions_first wOneObsolete bMain 3 4 (by decide) (by decide)
    (by decide) (by decide)

end Upgradelet

namespace Upgradelet

theorem pre_events_classified {w : World} {res : UpgradeCheckResults} {ev0 : List Event}
    (hres : checkNeedsUpgrade w = .ok (res, ev0)) :
    ∀ e ∈ ev0 ++ Event.initRepo :: Event.listRemoteBranches GitRepo.ORIGIN ::
      (cleanupGo w (obsoleteBranchesOf w)).1,
      isNewWorkEv e = false ∧ isCloseEv e = false := by
  intro e he
  simp only [List.mem_append, List.mem_cons] at he
  rcases he with he | he | he | he
  · exact ⟨(ev0_not_post hres e he).2.2.1, (ev0_not_post hres e he).2.2.2⟩
  · subst he; exact ⟨rfl, rfl⟩
  · subst he; exact ⟨rfl, rfl⟩
  · obtain ⟨b2, ok, rfl⟩ := cleanupGo_events w _ e he
    exact ⟨rfl, rfl⟩

theorem upgradeTrace_not_close (w : World) (branch : Str) (res : UpgradeCheckResults) :
    ∀ e ∈ upgradeTrace w branch res, isCloseEv e = false := by
  intro e he
  unfold upgradeTrace at he
  simp only [List.cons_append, List.nil_append, List.mem_cons, List.mem_append,
    List.mem_map, List.mem_singleton, List.mem_nil_iff, or_false] at he
  rcases he with h | h | h | h | h | h | h | h | ⟨pr, -, h⟩ | h <;> subst h <;> rfl

/-- C1 (amended): in a run where the automation branch for the latest Sha
is a key of the branch-to-open-PR map, no local branch is created, no
change applied, no commit, push or pull-request creation is performed; and
provided every preceding obsolete-branch deletion succeeds (a failing
deletion aborts the run before the duplicate check), the engine returns
reporting the open PRs recorded in the map for that branch. -/
theorem c1_dup_short_circuit (w : World) (branch : Str) (res : UpgradeCheckResults)
    (ev0 : List Event) (hres : checkNeedsUpgrade w = .ok (res, ev0))
    (hneed : res.needsUpgrade = true)
    (hdup : (branchesWithOpenPrs w).contains
      (localBranchName branch res.latestSha) = true) :
    (∀ e ∈ (checkAndUpgrade w branch).trace, isNewWorkEv e = false) ∧
    ((obsoleteBranchesOf w).any w.deleteFails = false →
      (checkAndUpgrade w branch).outcome =
        Outcome.prExists (((getOpenPrsPerBranch w (relevantBranches w)).lookup
          (localBranchName branch res.latestSha)).getD [])) := by
  constructor
  · intro e he
    rw [checkAndUpgrade, hres] at he
    dsimp only at he
    rw [if_pos hneed] at he
    by_cases hcl : (cleanupGo w (obsoleteBranchesOf w)).2 = false
    · rw [if_pos hcl] at he
      exact (pre_events_classified hres e he).1
    · rw [if_neg hcl, if_pos hdup] at he
      simp only [List.append_assoc, List.mem_append, List.mem_cons, List.mem_singleton,
        List.mem_nil_iff, or_false] at he
      rcases he with he | (he | he | he) | he
      · exact (ev0_not_post hres e he).2.2.1
      · subst he; rfl
      · subst he; rfl
      · obtain ⟨b2, ok, rfl⟩ := cleanupGo_events w _ e he
        rfl
      · subst he; rfl
  · intro hclean
    have hcl : ¬(cleanupGo w (obsoleteBranchesOf w)).2 = false := by
      rw [cleanupGo_ok, hclean]
      simp
    rw [checkAndUpgrade, hres]
    dsimp only
    rw [if_pos hneed, if_neg hcl, if_pos hdup]

end Upgradelet

namespace Upgradelet

/-- C1 counterexample: in `wDupFail` an open PR exists for the automation
branch of the latest Sha, yet the run does not report it: the preceding
obsolete-branch deletion fails and the run ends as `failed`. -/
theorem c1_counterexample :
    (branchesWithOpenPrs wDupFail).contains
      (localBranchName bMain (strL "bbbbbbbbb")) = true ∧
    (checkAndUpgrade wDupFail bMain).outcome =
      Outcome.failed UpgError.remoteOpFailed := by
  exact ⟨by decide, by decide⟩

/-- C1 witness: in `wDup` (no failing deletion) the run reports the
existing PR for the latest Sha's automation branch. -/
theorem c1_witness :
    (checkAndUpgrade wDup bMain).outcome =
      Outcome.prExists (((getOpenPrsPerBranch wDup (relevantBranches wDup)).lookup
        (localBranchName bMain (strL "bbbbbbbbb"))).getD []) :=
  (c1_dup_short_circuit wDup bMain
    ⟨strL "aaa", strL "bbbbbbbbb", true⟩
    [Event.getAffectedFilesCall (strL "aaa") (strL "bbbbbbbbb")]
    rfl rfl (by decide)).2 (by decide)

end Upgradelet

namespace Upgradelet

theorem deleteAttemptsOf_append (a b : List Event) :
    deleteAttemptsOf (a ++ b) = deleteAttemptsOf a ++ deleteAttemptsOf b :=
  List.filterMap_append a b _

theorem deleteAttemptsOf_nil_of_not_delete (tr : List Event)
    (h : ∀ e ∈ tr, isDeleteEv e = false) : deleteAttemptsOf tr = [] := by
  unfold deleteAttemptsOf
  rw [List.filterMap_eq_nil_iff]
  intro e he
  have hd := h e he
  cases e <;> simp [isDeleteEv] at hd ⊢

/-- C3 (amended): obsolete-branch deletion is not best-effort per branch:
the obsolete branches are deleted in order, the attempts stop at the first
failing deletion (the remaining obsolete branches are not attempted), and
a failing deletion makes the whole run fail. -/
theorem c3_cleanup_aborts_run (w : World) (branch : Str) (res : UpgradeCheckResults)
    (ev0 : List Event) (hres : checkNeedsUpgrade w = .ok (res, ev0))
    (hneed : res.needsUpgrade = true) :
    deleteAttemptsOf (checkAndUpgrade w branch).trace =
      (obsoleteBranchesOf w).takeWhile (fun b => !w.deleteFails b) ++
      ((obsoleteBranchesOf w).dropWhile (fun b => !w.deleteFails b)).take 1 ∧
    ((obsoleteBranchesOf w).any w.deleteFails = true →
      (checkAndUpgrade w branch).outcome = Outcome.failed UpgError.remoteOpFailed) := by
  have hev0 : deleteAttemptsOf ev0 = [] :=
    deleteAttemptsOf_nil_of_not_delete ev0 (fun e he => (ev0_not_post hres e he).2.1)
  have hupg : deleteAttemptsOf (upgradeTrace w branch res) = [] :=
    deleteAttemptsOf_nil_of_not_delete _ (upgradeTrace_not_delete w branch res)
  by_cases hcl : (cleanupGo w (obsoleteBranchesOf w)).2 = false
  · constructor
    · rw [checkAndUpgrade, hres]
      dsimp only
      rw [if_pos hneed, if_pos hcl]
      show deleteAttemptsOf (ev0 ++ Event.initRepo :: Event.listRemoteBranches
        GitRepo.ORIGIN :: (cleanupGo w (obsoleteBranchesOf w)).1) = _
      rw [deleteAttemptsOf_append, hev0]
      show deleteAttemptsOf (cleanupGo w (obsoleteBranchesOf w)).1 = _
      rw [cleanupGo_attempts]
    · intro _
      rw [checkAndUpgrade, hres]
      dsimp only
      rw [if_pos hneed, if_pos hcl]
  · have hnofail : (obsoleteBranchesOf w).any w.deleteFails = false := by
      have h2 := cleanupGo_ok w (obsoleteBranchesOf w)
      cases hany : (obsoleteBranchesOf w).any w.deleteFails
      · rfl
      · rw [hany] at h2
        exact absurd h2 (by simpa using hcl)
    constructor
    · by_cases hdup : (branchesWithOpenPrs w).contains
          (localBranchName branch res.latestSha) = true
      · rw [checkAndUpgrade, hres]
        dsimp only
        rw [if_pos hneed, if_neg hcl, if_pos hdup]
        show deleteAttemptsOf ((ev0 ++ Event.initRepo :: Event.listRemoteBranches
          GitRepo.ORIGIN :: (cleanupGo w (obsoleteBranchesOf w)).1) ++
          [Event.dupCheck (localBranchName branch res.latestSha) true]) = _
        rw [deleteAttemptsOf_append, deleteAttemptsOf_append, hev0]
        show ([] : List Str) ++ (deleteAttemptsOf (cleanupGo w (obsoleteBranchesOf w)).1 ++
          deleteAttemptsOf [Event.dupCheck (localBranchName branch res.latestSha) true]) = _
        rw [cleanupGo_attempts]
        simp [deleteAttemptsOf]
      · rw [checkAndUpgrade, hres]
        dsimp only
        rw [if_pos hneed, if_neg hcl, if_neg (by simpa using hdup)]
        show deleteAttemptsOf ((ev0 ++ Event.initRepo :: Event.listRemoteBranches
          GitRepo.ORIGIN :: (cleanupGo w (obsoleteBranchesOf w)).1) ++
          Event.dupCheck (localBranchName branch res.latestSha) false ::
            upgradeTrace w branch res) = _
        rw [deleteAttemptsOf_append, deleteAttemptsOf_append, hev0]
        show ([] : List Str) ++ (deleteAttemptsOf (cleanupGo w (obsoleteBranchesOf w)).1 ++
          deleteAttemptsOf (Event.dupCheck (localBranchName branch res.latestSha) false ::
            upgradeTrace w branch res)) = _
        rw [cleanupGo_attempts]
        have : deleteAttemptsOf (Event.dupCheck (localBranchName branch res.latestSha)
            false :: upgradeTrace w branch res) = [] := by
          simpa [deleteAttemptsOf] using hupg
        rw [this]
        simp
    · intro hany
      rw [hany] at hnofail
      exact absurd hnofail (by simp)

/-- C3 counterexample: `wTwoObsolete` has two obsolete automation branches
and deleting the first fails: the second branch is never attempted and the
run fails, so a deletion failure is neither contained per branch nor
without effect on the run's outcome. -/
theorem c3_counterexample :
    obsoleteBranchesOf wTwoObsolete =
      [strL "upgrade-cli-src--main--ddddddddd",
       strL "upgrade-cli-src--main--eeeeeeeee"] ∧
    deleteAttemptsOf (checkAndUpgrade wTwoObsolete bMain).trace =
      [strL "upgrade-cli-src--main--ddddddddd"] ∧
    (checkAndUpgrade wTwoObsolete bMain).outcome =
      Outcome.failed UpgError.remoteOpFailed := by
  exact ⟨by decide, by decide, by decide⟩

/-- C3 witness: the amended statement applied to `wTwoObsolete`. -/
theorem c3_witness :
    deleteAttemptsOf (checkAndUpgrade wTwoObsolete bMain).trace =
      (obsoleteBranchesOf wTwoObsolete).takeWhile
        (fun b => !wTwoObsolete.deleteFails b) ++
      ((obsoleteBranchesOf wTwoObsolete).dropWhile
        (fun b => !wTwoObsolete.deleteFails b)).take 1 ∧
    (checkAndUpgrade wTwoObsolete bMain).outcome =
      Outcome.failed UpgError.remoteOpFailed := by
  have h := c3_cleanup_aborts_run wTwoObsolete bMain
    ⟨strL "aaa", strL "bbbbbbbbb", true⟩
    [Event.getAffectedFilesCall (strL "aaa") (strL "bbbbbbbbb")] rfl rfl
  exact ⟨h.1, h.2 (by decide)⟩

end Upgradelet

namespace Upgradelet

theorem cleanupGo_congr (w w' : World) (hdf : w'.deleteFails = w.deleteFails)
    (bs : List Str) : cleanupGo w' bs = cleanupGo w bs := by
  induction bs with
  | nil => rfl
  | cons b rest ih => simp [cleanupGo, hdf, ih]

theorem outcome_ignores_commentFails (w : World) (g : Nat → Bool) (branch : Str) :
    (checkAndUpgrade { w with commentFails := g } branch).outcome =
      (checkAndUpgrade w branch).outcome := by
  have hcg : cleanupGo { w with commentFails := g } (obsoleteBranchesOf w) =
      cleanupGo w (obsoleteBranchesOf w) :=
    cleanupGo_congr w { w with commentFails := g } rfl _
  rw [checkAndUpgrade, checkAndUpgrade]
  have hck : checkNeedsUpgrade { w with commentFails := g } = checkNeedsUpgrade w := rfl
  rw [hck]
  cases hres : checkNeedsUpgrade w with
  | error e => rfl
  | ok p =>
    obtain ⟨res, ev0⟩ := p
    dsimp only
    by_cases hn : res.needsUpgrade = true
    · rw [if_pos hn, if_pos hn]
      have hobs : obsoleteBranchesOf { w with commentFails := g } =
          obsoleteBranchesOf w := rfl
      rw [hobs, hcg]
      by_cases hcl : (cleanupGo w (obsoleteBranchesOf w)).2 = false
      · rw [if_pos hcl, if_pos hcl]
      · rw [if_neg hcl, if_neg hcl]
        have hbw : branchesWithOpenPrs { w with commentFails := g } =
            branchesWithOpenPrs w := rfl
        rw [hbw]
        by_cases hdup : (branchesWithOpenPrs w).contains
            (localBranchName branch res.latestSha) = true
        · rw [if_pos hdup, if_pos hdup]
          rfl
        · rw [if_neg hdup, if_neg hdup]
    · rw [if_neg hn, if_neg hn]

/-- C6: once the new pull request is created, every superseded open PR is
commented on (best-effort: the attempt is made whatever its individual
result) with text referencing the new PR's number, the engine closes no PR
in any event of the run, and the individual comment failures do not change
the run's outcome. -/
theorem c6_superceded_comments (w : World) (branch : Str)
    (res : UpgradeCheckResults) (ev0 : List Event)
    (hres : checkNeedsUpgrade w = .ok (res, ev0))
    (hneed : res.needsUpgrade = true)
    (hclean : (obsoleteBranchesOf w).any w.deleteFails = false)
    (hnew : (branchesWithOpenPrs w).contains
      (localBranchName branch res.latestSha) = false) :
    (checkAndUpgrade w branch).outcome = Outcome.upgraded w.newPr ∧
    (∀ pr ∈ supercededPrsOf w, ∃ ok, Event.commentEv pr.number
      (supercededComment w.newPr) ok ∈ (checkAndUpgrade w branch).trace) ∧
    (∀ n, Event.closePrEv n ∉ (checkAndUpgrade w branch).trace) ∧
    (∀ g, (checkAndUpgrade { w with commentFails := g } branch).outcome =
      (checkAndUpgrade w branch).outcome) := by
  have hcl : ¬(cleanupGo w (obsoleteBranchesOf w)).2 = false := by
    rw [cleanupGo_ok, hclean]
    simp
  have hdup : ¬(branchesWithOpenPrs w).contains
      (localBranchName branch res.latestSha) = true := by
    rw [hnew]
    simp
  refine ⟨?_, ?_, ?_, fun g => outcome_ignores_commentFails w g branch⟩
  · rw [checkAndUpgrade, hres]
    dsimp only
    rw [if_pos hneed, if_neg hcl, if_neg hdup]
  · intro pr hpr
    refine ⟨!w.commentFails pr.number, ?_⟩
    rw [checkAndUpgrade, hres]
    dsimp only
    rw [if_pos hneed, if_neg hcl, if_neg hdup]
    simp only [List.mem_append, List.mem_cons]
    right
    right
    unfold upgradeTrace
    simp only [List.cons_append, List.nil_append, List.mem_cons, List.mem_append,
      List.mem_map, List.mem_singleton]
    refine Or.inr (Or.inr (Or.inr (Or.inr (Or.inr (Or.inr (Or.inr (Or.inr
      (Or.inl ⟨pr, hpr, rfl⟩))))))))
  · intro n hmem
    rw [checkAndUpgrade, hres] at hmem
    dsimp only at hmem
    rw [if_pos hneed, if_neg hcl, if_neg hdup] at hmem
    simp only [List.mem_append, List.mem_cons] at hmem
    rcases hmem with (hm | hm | hm | hm) | hm | hm
    · have hno := (ev0_not_post hres _ hm).2.2.2
      simp [isCloseEv] at hno
    · exact absurd hm (by simp)
    · exact absurd hm (by simp)
    · obtain ⟨b2, ok, heq⟩ := cleanupGo_events w _ _ hm
      exact absurd heq (by simp)
    · exact absurd hm (by simp)
    · have hno := upgradeTrace_not_close w branch res _ hm
      simp [isCloseEv] at hno

/-- C6 witness: in `wSuperceded` the run succeeds, PR 10 is commented on
with a reference to the new PR 42, and no close event occurs. -/
theorem c6_witness :
    (checkAndUpgrade wSuperceded bMain).outcome = Outcome.upgraded wSuperceded.newPr ∧
    (∃ ok, Event.commentEv prOld.number (supercededComment wSuperceded.newPr) ok ∈
      (checkAndUpgrade wSuperceded bMain).trace) ∧
    Event.closePrEv 10 ∉ (checkAndUpgrade wSuperceded bMain).trace := by
  have h := c6_superceded_comments wSuperceded bMain
    ⟨strL "aaa", strL "bbbbbbbbb", true⟩
    [Event.getAffectedFilesCall (strL "aaa") (strL "bbbbbbbbb")]
    rfl rfl (by decide) (by decide)
  exact ⟨h.1, h.2.1 prOld (by decide), h.2.2.1 10⟩

end Upgradelet

theorem head?_append_left {α : Type} (l₁ l₂ : List α) (h : l₁ ≠ []) :
    (l₁ ++ l₂).head? = l₁.head? := by
  cases l₁ with
  | nil => exact absurd rfl h
  | cons a l => rfl

namespace Upgradelet

theorem map_filter_snd {α β : Type} (f : α → β) (p : β → Bool) :
    ∀ l : List α,
      ((l.map (fun b => (b, f b))).filter (fun e => p e.2)).map Prod.snd =
      (l.filter (fun b => p (f b))).map f
  | [] => rfl
  | x :: xs => by
    by_cases hp : p (f x)
    · simp [List.filter_cons, hp, map_filter_snd f p xs]
    · simp [List.filter_cons, hp, map_filter_snd f p xs]

theorem supercededPrsOf_eq (w : World) :
    supercededPrsOf w =
      (((relevantBranches w).filter
        (fun b => !(openRelevantPrsFor w b).isEmpty)).map (openRelevantPrsFor w)).flatten := by
  unfold supercededPrsOf
  rw [foldl_append_eq_flatten, List.nil_append, getOpenPrsPerBranch_eq,
    map_filter_snd (openRelevantPrsFor w) (fun l => !l.isEmpty)]

theorem openRelevantPrsFor_sublist (w : World) (b : Str) :
    List.Sublist (openRelevantPrsFor w b) w.prs := by
  unfold openRelevantPrsFor getPullRequests
  exact (List.filter_sublist _).trans ((List.filter_sublist _).trans (List.filter_sublist _))

theorem mem_openRelevantPrsFor {w : World} {b : Str} {pr : PullRequest}
    (h : pr ∈ openRelevantPrsFor w b) : pr ∈ w.prs ∧ pr.headRef = prHead w b := by
  unfold openRelevantPrsFor getPullRequests at h
  have h1 := List.mem_filter.mp h
  have h2 := List.mem_filter.mp h1.1
  have h3 := List.mem_filter.mp h2.1
  exact ⟨h3.1, by simpa using h3.2⟩

theorem prHead_inj {w : World} {b1 b2 : Str} (h : prHead w b1 = prHead w b2) :
    b1 = b2 := by
  unfold prHead at h
  have h2 := List.append_cancel_left h
  simpa using h2

theorem superceded_numbers_nodup (w : World)
    (hnodup : w.originBranches.Nodup)
    (hnums : (w.prs.map PullRequest.number).Nodup) :
    ((supercededPrsOf w).map PullRequest.number).Nodup := by
  rw [supercededPrsOf_eq]
  have hbsnodup : ((relevantBranches w).filter
      (fun b => !(openRelevantPrsFor w b).isEmpty)).Nodup :=
    (hnodup.filter _).filter _
  rw [List.map_flatten, List.map_map, List.nodup_flatten]
  constructor
  · intro l hl
    simp only [List.mem_map, Function.comp] at hl
    obtain ⟨b, -, rfl⟩ := hl
    exact List.Nodup.sublist ((openRelevantPrsFor_sublist w b).map _) hnums
  · rw [List.pairwise_map]
    refine hbsnodup.imp ?_
    intro b1 b2 hne
    intro n hn1 hn2
    simp only [Function.comp, List.mem_map] at hn1 hn2
    obtain ⟨pr1, hpr1, rfl⟩ := hn1
    obtain ⟨pr2, hpr2, hn2eq⟩ := hn2
    obtain ⟨hm1, hh1⟩ := mem_openRelevantPrsFor hpr1
    obtain ⟨hm2, hh2⟩ := mem_openRelevantPrsFor hpr2
    have hpr : pr2 = pr1 := List.inj_on_of_nodup_map hnums hm2 hm1 hn2eq
    subst hpr
    exact hne (prHead_inj (hh1.symm.trans hh2))

theorem subject_ne_nil (latestSha : Str) : commitMessageLead ++ latestSha ≠ [] := by
  intro h
  have h2 := (List.append_eq_nil.mp h).1
  exact absurd h2 (by decide)

theorem subject_head_not_ws (latestSha : Str) :
    ∀ c, (commitMessageLead ++ latestSha).head? = some c → isJsWs c = false := by
  intro c hc
  rw [head?_append_left _ _ (by decide)] at hc
  have hb : commitMessageLead.head? = some 'b' := by decide
  rw [hb] at hc
  cases hc
  decide

theorem subject_last_not_ws (latestSha : Str) (hne : latestSha ≠ [])
    (hsha : ∀ c ∈ latestSha, isJsWs c = false) :
    ∀ c, (commitMessageLead ++ latestSha).getLast? = some c → isJsWs c = false := by
  intro c hc
  rw [List.getLast?_append_of_ne_nil _ hne] at hc
  exact hsha c (mem_of_getLast?_eq_some hc)

theorem closesLine_ne_nil (n : Nat) : closesLine n ≠ [] := by
  unfold closesLine
  intro h
  exact absurd (List.append_eq_nil.mp h).1 (by decide)

theorem closesLine_last_not_ws (n : Nat) :
    ∀ c, (closesLine n).getLast? = some c → isJsWs c = false := by
  intro c hc
  unfold closesLine at hc
  rw [List.getLast?_append_of_ne_nil _ (natStr_ne_nil n)] at hc
  exact natStr_getLast_not_ws n c hc

theorem commitMsgOf_no_superceded (w : World) (latestSha : Str) (hne : latestSha ≠ [])
    (hsha : ∀ c ∈ latestSha, isJsWs c = false) (hsup : supercededPrsOf w = []) :
    commitMsgOf w latestSha = commitMessageLead ++ latestSha := by
  unfold commitMsgOf
  rw [hsup]
  simp only [List.map_nil]
  have hj : joinSep (strL "\n") ([] : List Str) = [] := rfl
  rw [hj, List.append_nil]
  exact trimStr_append_two_nl _ (subject_ne_nil latestSha)
    (subject_head_not_ws latestSha) (subject_last_not_ws latestSha hne hsha)

theorem commitMsgOf_superceded (w : World) (latestSha : Str)
    (hsup : supercededPrsOf w ≠ []) :
    commitMsgOf w latestSha = (commitMessageLead ++ latestSha) ++ strL "\n\n" ++
      joinSep (strL "\n")
        ((supercededPrsOf w).map (fun pr => closesLine pr.number)) := by
  unfold commitMsgOf closesLine
  have hlines : ∀ l ∈ (supercededPrsOf w).map
      (fun pr => strL "Closes #" ++ natStr pr.number), l ≠ [] := by
    intro l hl
    simp only [List.mem_map] at hl
    obtain ⟨pr, -, rfl⟩ := hl
    exact closesLine_ne_nil pr.number
  have hlnnil : (supercededPrsOf w).map
      (fun pr => strL "Closes #" ++ natStr pr.number) ≠ [] := by
    cases hs : supercededPrsOf w with
    | nil => exact absurd hs hsup
    | cons p rest => simp
  have hjoin : joinSep (strL "\n") ((supercededPrsOf w).map
      (fun pr => strL "Closes #" ++ natStr pr.number)) ≠ [] :=
    joinSep_ne_nil _ _ hlines hlnnil
  have hsubjnl : commitMessageLead ++ latestSha ++ strL "\n\n" ≠ [] := by
    intro h
    exact absurd (List.append_eq_nil.mp h).2 (by decide)
  apply trimStr_eq_self
  · intro c hc
    rw [head?_append_left (commitMessageLead ++ latestSha ++ strL "\n\n") _ hsubjnl,
      head?_append_left (commitMessageLead ++ latestSha) _ (subject_ne_nil latestSha),
      head?_append_left commitMessageLead latestSha (by decide)] at hc
    have hb : commitMessageLead.head? = some 'b' := by decide
    rw [hb] at hc
    cases hc
    decide
  · intro c hc
    rw [List.getLast?_append_of_ne_nil
      (commitMessageLead ++ latestSha ++ strL "\n\n") hjoin] at hc
    refine joinSep_nl_getLast_not_ws _ hlines ?_ c hc
    intro l hl
    simp only [List.mem_map] at hl
    obtain ⟨pr, -, rfl⟩ := hl
    exact closesLine_last_not_ws pr.number

end Upgradelet

namespace Upgradelet

/-- C4: when the new upgrade commit is created, its message's subject is
the fixed commit-message lead concatenated with the latest Sha; its body
consists of exactly the `Closes #N` lines of the open relevant PRs
collected across all discovered automation branches with open PRs, one
line per PR with no duplicate PR numbers, in discovery order (candidate
branch order, each branch's PRs in query order). -/
theorem c4_commit_message (w : World) (branch : Str)
    (res : UpgradeCheckResults) (ev0 : List Event)
    (hres : checkNeedsUpgrade w = .ok (res, ev0))
    (hneed : res.needsUpgrade = true)
    (hclean : (obsoleteBranchesOf w).any w.deleteFails = false)
    (hnew : (branchesWithOpenPrs w).contains
      (localBranchName branch res.latestSha) = false)
    (hnodup : w.originBranches.Nodup)
    (hnums : (w.prs.map PullRequest.number).Nodup)
    (hsha : ∀ c ∈ res.latestSha, isJsWs c = false) :
    ∃ msg, Event.commitEv msg ∈ (checkAndUpgrade w branch).trace ∧
      (supercededPrsOf w = [] → msg = commitMessageLead ++ res.latestSha) ∧
      (supercededPrsOf w ≠ [] →
        msg = (commitMessageLead ++ res.latestSha) ++ strL "\n\n" ++
          joinSep (strL "\n")
            ((supercededPrsOf w).map (fun pr => closesLine pr.number))) ∧
      ((supercededPrsOf w).map PullRequest.number).Nodup ∧
      supercededPrsOf w =
        (((relevantBranches w).filter
          (fun b => !(openRelevantPrsFor w b).isEmpty)).map
            (openRelevantPrsFor w)).flatten := by
  have hlne : res.latestSha ≠ [] := by
    obtain ⟨-, htake, hraw, -, -⟩ := checkNeedsUpgrade_ok hres
    rw [htake]
    cases hw : w.latestShaRaw with
    | nil => exact absurd hw hraw
    | cons a l => simp
  have hcl : ¬(cleanupGo w (obsoleteBranchesOf w)).2 = false := by
    rw [cleanupGo_ok, hclean]
    simp
  have hdup : ¬(branchesWithOpenPrs w).contains
      (localBranchName branch res.latestSha) = true := by
    rw [hnew]
    simp
  refine ⟨commitMsgOf w res.latestSha, ?_, ?_, ?_,
    superceded_numbers_nodup w hnodup hnums, supercededPrsOf_eq w⟩
  · rw [checkAndUpgrade, hres]
    dsimp only
    rw [if_pos hneed, if_neg hcl, if_neg hdup]
    simp only [List.mem_append, List.mem_cons]
    right
    right
    unfold upgradeTrace
    simp
  · intro hsup
    exact commitMsgOf_no_superceded w res.latestSha hlne hsha hsup
  · intro hsup
    exact commitMsgOf_superceded w res.latestSha hsup

/-- C4 witness: in `wSuperceded` the commit message is the subject for
`bbbbbbbbb` plus a body of exactly one line, `Closes #10`. -/
theorem c4_witness :
    Event.commitEv ((commitMessageLead ++ strL "bbbbbbbbb") ++ strL "\n\n" ++
        joinSep (strL "\n") ((supercededPrsOf wSuperceded).map
          (fun pr => closesLine pr.number))) ∈
      (checkAndUpgrade wSuperceded bMain).trace ∧
    ((supercededPrsOf wSuperceded).map PullRequest.number).Nodup := by
  obtain ⟨msg, hmem, -, hchar, hnodup, -⟩ := c4_commit_message wSuperceded bMain
    ⟨strL "aaa", strL "bbbbbbbbb", true⟩
    [Event.getAffectedFilesCall (strL "aaa") (strL "bbbbbbbbb")]
    rfl rfl (by decide) (by decide) (by decide) (by decide) (by decide)
  rw [hchar (by decide)] at hmem
  exact ⟨hmem, hnodup⟩

end Upgradelet
